import Mathlib

/-
  Verification development for the cgcs_malloc allocator
  (src/cgcs_malloc.c): a fixed 4096-byte arena managed through in-place
  headers.  Each header is a 16-bit signed integer m_size stored at the
  start of its block; a non-negative value means the block is free, a
  negative value means it is in use, and the magnitude is the payload
  byte count.  The block after a header at offset o starts at
  o + 2 + |m_size|.

  Two embeddings of the source are developed.

  1. A byte-level model (suffix _bytes) of cgcs_free_impl and its
     helpers, in which memory is a total function from integer offsets
     to byte values and the arena occupies offsets 0..4095.  int16
     values are stored little-endian.  This model is used for the
     pointer-validation behaviour of release, which reads two bytes at
     an arbitrary offset (ptr - 2).

  2. A header-chain model in which the arena state is the list of
     m_size values met on the block walk from offset 0.  All reads and
     writes that cgcs_malloc_impl / cgcs_free_impl perform at header
     positions of this walk are represented directly; writes that land
     strictly inside a block's payload (the stale-header writes
     detailed below) do not change the walk and therefore leave the
     list unchanged.  This model is used for the allocator algorithms.
-/

namespace CgcsMalloc

/-! ### Byte-level model of memory and of cgcs_free_impl -/

/-- Memory is a total function from integer byte offsets to byte
values; the arena (the global array named block in the source, of size
CGCS_MALLOC_BLOCK_SIZE = 4096) occupies offsets 0..4095.  Offsets
outside that range model the bytes surrounding the array. -/
abbrev Mem := Int → Nat

/-- Read one byte (defensively reduced mod 256). -/
def readByte (m : Mem) (o : Int) : Nat := m o % 256

/-- Reinterpret an unsigned 16-bit value as a signed int16. -/
def u16ToI16 (u : Nat) : Int := if u < 32768 then (u : Int) else (u : Int) - 65536

/-- Decode the int16 stored little-endian at offsets o, o+1: this is
the m_size field of a header_t laid at offset o. -/
def decode16 (m : Mem) (o : Int) : Int := u16ToI16 (readByte m o + 256 * readByte m (o + 1))

/-- Encode a signed value as an unsigned 16-bit value (two's complement). -/
def enc16 (v : Int) : Nat := (v % 65536).toNat

/-- Store an int16 little-endian at offsets o, o+1. -/
def write16 (m : Mem) (o : Int) (v : Int) : Mem :=
  fun i => if i = o then enc16 v % 256 else if i = o + 1 then enc16 v / 256 else m i

/-- header_alloc_size: abs(self->m_size). -/
def header_alloc_size_bytes (m : Mem) (o : Int) : Nat := (decode16 m o).natAbs

/-- header_is_free: self->m_size >= 0. -/
def header_is_free_bytes (m : Mem) (o : Int) : Bool := decide (0 ≤ decode16 m o)

/-- header_is_used: self->m_size < 0. -/
def header_is_used_bytes (m : Mem) (o : Int) : Bool := decide (decode16 m o < 0)

/-- header_next: the address sizeof(header_t) + header_alloc_size(self)
past self. -/
def header_next_bytes (m : Mem) (o : Int) : Int := o + 2 + header_alloc_size_bytes m o

/-- header_is_last: header_next(self) - 1 equals the last possible
header alignment (offset 4094), i.e. header_next(self) = 4096. -/
def header_is_last_bytes (m : Mem) (o : Int) : Bool := decide (header_next_bytes m o = 4096)

/-- header_toggle_use_status: m_size := ~m_size + 1 (two's-complement
negation on int16). -/
def header_toggle_use_status_bytes (m : Mem) (o : Int) : Mem :=
  write16 m o (-(decode16 m o))

/-- header_merge_with_next_block: self->m_size += next->m_size + sizeof(header_t). -/
def header_merge_with_next_block_bytes (m : Mem) (o : Int) : Mem :=
  write16 m o (decode16 m o + (decode16 m (header_next_bytes m o) + 2))

/-- header_coalesce: walk from self, and whenever the previously
visited header and the current one are both free, merge the previous
one with its current successor.  The source loop terminates because the
walk leaves the arena; the model uses explicit fuel, which every
theorem instantiates large enough for the walk at hand. -/
def header_coalesce_bytes : Nat → Mem → Option Int → Int → Mem
  | 0, m, _, _ => m
  | fuel + 1, m, prev, self =>
    let m1 := match prev with
      | some p =>
        if header_is_free_bytes m p && header_is_free_bytes m self then
          header_merge_with_next_block_bytes m p
        else m
      | none => m
    if header_is_last_bytes m1 self then m1
    else header_coalesce_bytes fuel m1 (some self) (header_next_bytes m1 self)

/-- pointer_outside_block_range: ptr < &block[0] or ptr > &block[4095],
with pointers expressed as offsets from the arena base. -/
def pointer_outside_block_range (p : Int) : Bool := decide (p < 0) || decide (4095 < p)

/-- Outcome of cgcs_free_impl, read off from which branch the source
takes (each branch is identified by its diagnostic message). -/
inductive FStatus where
  | freed
  | invalidPointer
  | doubleFree
deriving DecidableEq, Repr

/-- cgcs_free_impl at byte level: reject pointers outside the arena
byte range; otherwise read the candidate header at ptr - 2; if it
decodes as used, toggle it and run header_coalesce from the arena base,
else report a double free and change nothing. -/
def cgcs_free_impl_bytes (m : Mem) (p : Int) (fuel : Nat) : Mem × FStatus :=
  if pointer_outside_block_range p then (m, .invalidPointer)
  else
    let c := p - 2
    if header_is_used_bytes m c then
      (header_coalesce_bytes fuel (header_toggle_use_status_bytes m c) none 0, .freed)
    else (m, .doubleFree)

/-- All-zero memory: the freshly loaded .BSS image of the arena and its
surroundings. -/
def zeroMem : Mem := fun _ => 0

/-- The arena right after mem_initialize: first header set to
CGCS_MALLOC_BLOCK_SIZE - sizeof(header_t) = 4094, everything else zero. -/
def freshMem : Mem := write16 zeroMem 0 4094

/-! ### Header-chain model of the allocator

The state is the list of m_size values seen on the block walk from
offset 0.  The i-th element is the header of the i-th block; the block
of the i-th header starts at 2 + the sum of (2 + |m|) over the previous
headers. -/

abbrev Chain := List Int

/-- Wrap an integer to the int16 range, as storing to the m_size field
does. -/
def i16 (v : Int) : Int := (v + 32768) % 65536 - 32768

/-- header_is_free on a header value. -/
def header_is_free (m : Int) : Bool := decide (0 ≤ m)

/-- header_is_used on a header value. -/
def header_is_used (m : Int) : Bool := decide (m < 0)

/-- header_alloc_size on a header value. -/
def header_alloc_size (m : Int) : Nat := m.natAbs

/-- header_toggle_use_status on a header value. -/
def header_toggle_use_status (m : Int) : Int := i16 (-m)

/-- header_calculate_split_remainder_size: (int16)(m_size - size_to_keep - 2). -/
def header_calculate_split_remainder_size (m : Int) (size_to_keep : Nat) : Int :=
  i16 (m - size_to_keep - 2)

/-- The chain produced by mem_initialize: one free block of size
CGCS_MALLOC_BLOCK_SIZE - sizeof(header_t) = 4094 covering the arena. -/
def initChain : Chain := [4094]

/-- The lazy initialization at the top of cgcs_malloc_impl: if the
first header carries the sentinel 0 (the untouched zeroed arena), run
mem_initialize.  On the all-zero arena writing 4094 at offset 0 makes
the walk the single block [4094] whatever the remaining bytes are. -/
def lazyInit (c : Chain) : Chain :=
  match c with
  | [] => initChain
  | m :: _ => if m = 0 then initChain else c

/-- header_split_block(self, size_to_keep) at a header on the walk,
with self at byte offset off and the rest of the walk after self given
by rest.  Mirrors the guard in the source (new_header at offset
off + 2 + size_to_keep must be before the last possible header
alignment 4094; size_to_keep must be neither 0 nor at least 4094),
then writes new_header = (m - size_to_keep) - 2 and self = size_to_keep. -/
def header_split_block (off : Nat) (m : Int) (size_to_keep : Nat) (rest : Chain) : Chain :=
  if 4094 ≤ off + 2 + size_to_keep || size_to_keep == 0 || 4094 ≤ size_to_keep then
    m :: rest
  else
    (size_to_keep : Int) :: i16 ((m - size_to_keep) - 2) :: rest

/-- The code cgcs_malloc_impl runs after its search loop stops at a
block (header value cur at offset off, rest of the walk after it
rest): split when the remainder after keeping exactly size bytes is at
least 1, then toggle the block to used.  The returned payload pointer
is off + 2, added by the caller. -/
def selectBlock (off : Nat) (cur : Int) (rest : Chain) (size : Nat) : Chain :=
  let c1 :=
    if 1 ≤ header_calculate_split_remainder_size cur size then
      header_split_block off cur size rest
    else cur :: rest
  match c1 with
  | [] => []
  | x :: r => header_toggle_use_status x :: r

/-- Cursor of the search loop of cgcs_malloc_impl.  The loop variable
curr either points at a header of the current walk (real), or — right
after a merge absorbed the block it is moved to — at the absorbed
block's old header, which now lies inside the payload of the merged
block (stale).  A stale cursor remembers the merged header value
curReal it sits inside of (the head of the walk at that point) and the
bytes it reads, staleVal (the absorbed header's old value). -/
inductive Cursor where
  | real (cur : Int)
  | stale (curReal : Int) (staleVal : Int)

/-- The search loop of cgcs_malloc_impl over the walk, returning the
walk after the call together with the returned payload offset.

For a real cursor this is literally the source loop: when curr is the
last block the loop exits and the block is selected unconditionally;
otherwise, if curr and its successor are both free they are merged and
the (enlarged) block is checked against the request; if it fits it is
selected, else curr moves to the absorbed header — a stale cursor whose
reads still see the absorbed block's old value, so the traversal keeps
following the old block boundaries.

For a stale cursor: its implied successor is the block after the one
that was absorbed, i.e. the next header of the current walk.  A merge
from a stale cursor writes inside the merged block's payload, which
leaves the walk unchanged; likewise selecting a stale cursor toggles
(and at most splits) bytes strictly inside an existing block, so the
walk is returned unchanged and only the returned pointer (the stale
offset + 2) records the selection.  When the stale cursor cannot be
used, the loop moves on to the next real header and the walk is
tracked again. -/
def scanGo (n : Nat) : Nat → Cursor → Chain → Chain × Nat
  | off, .real cur, [] => (selectBlock off cur [] n, off + 2)
  | off, .real cur, nxt :: rest2 =>
    if header_is_free cur then
      if header_is_free nxt then
        let merged := i16 (cur + (nxt + 2))
        if n ≤ header_alloc_size merged then (selectBlock off merged rest2 n, off + 2)
        else scanGo n (off + 2 + header_alloc_size cur) (.stale merged nxt) rest2
      else
        if n ≤ header_alloc_size cur then (selectBlock off cur (nxt :: rest2) n, off + 2)
        else
          let r := scanGo n (off + 2 + header_alloc_size cur) (.real nxt) rest2
          (cur :: r.1, r.2)
    else
      let r := scanGo n (off + 2 + header_alloc_size cur) (.real nxt) rest2
      (cur :: r.1, r.2)
  | off, .stale curReal _, [] => ([curReal], off + 2)
  | off, .stale curReal staleVal, nn :: rest3 =>
    if header_is_free staleVal then
      if header_is_free nn then
        let staleMerged := i16 (staleVal + (nn + 2))
        if n ≤ header_alloc_size staleMerged then (curReal :: nn :: rest3, off + 2)
        else
          let r := scanGo n (off + 2 + header_alloc_size staleVal) (.real nn) rest3
          (curReal :: r.1, r.2)
      else
        if n ≤ header_alloc_size staleVal then (curReal :: nn :: rest3, off + 2)
        else
          let r := scanGo n (off + 2 + header_alloc_size staleVal) (.real nn) rest3
          (curReal :: r.1, r.2)
    else
      let r := scanGo n (off + 2 + header_alloc_size staleVal) (.real nn) rest3
      (curReal :: r.1, r.2)

/-- Outcome of cgcs_malloc_impl: success, the invalid-size diagnostic,
or the out-of-memory diagnostic of its else branch. -/
inductive MStatus where
  | ok
  | invalidSize
  | outOfMemory
deriving DecidableEq, Repr

/-- Result of cgcs_malloc_impl: the walk after the call, the returned
payload pointer (as a byte offset; none models returning NULL), and
the branch taken. -/
structure MRes where
  chain : Chain
  ptr : Option Nat
  status : MStatus
deriving DecidableEq, Repr

/-- cgcs_malloc_impl on the header-chain model: lazy initialization,
the size guard (reject 0 and anything above
CGCS_MALLOC_BLOCK_SIZE - sizeof(header_t) = 4094), then the search
loop.  The source checks the loop cursor curr against NULL afterwards
and reports out of memory when it is NULL; but curr starts at the
arena base and is only ever assigned the loop condition's next, which
the loop guarantees non-NULL, so the loop always ends at a selected
block and the out-of-memory branch is unreachable.  The model keeps
that branch only for the artificial empty chain. -/
def cgcs_malloc_impl (c : Chain) (size : Nat) : MRes :=
  let c0 := lazyInit c
  if size == 0 || 4094 < size then ⟨c0, none, .invalidSize⟩
  else
    match c0 with
    | [] => ⟨c0, none, .outOfMemory⟩
    | cur :: rest =>
      let r := scanGo size 0 (.real cur) rest
      ⟨r.1, some r.2, .ok⟩

/-- Effect of header_coalesce on the walk.  In the source loop, self
visits the headers of the walk as it was when the call began (a merge
writes only to prev, never to self or beyond), so a merge is performed
at every adjacent pair of originally-free headers; of those written
headers, the ones the new walk actually passes through are the first,
third, ... of each free run.  A run of k adjacent free blocks hence
collapses pairwise: the walk afterwards is the original walk with
consecutive pairs of free headers merged left to right. -/
def coalescePairs : Chain → Chain
  | [] => []
  | [m] => [m]
  | m1 :: m2 :: rest =>
    if header_is_free m1 && header_is_free m2 then
      i16 (m1 + (m2 + 2)) :: coalescePairs rest
    else
      m1 :: coalescePairs (m2 :: rest)

/-- cgcs_free_impl on the header-chain model, for a pointer whose
candidate header (pointer - 2) is the i-th header of the walk: if that
header is used, toggle it and run header_coalesce from the arena base,
else report a double free and change nothing.  An index beyond the
walk corresponds to a pointer outside the arena, which the source
rejects before touching anything. -/
def cgcs_free_impl (c : Chain) (i : Nat) : Chain × FStatus :=
  match c.get? i with
  | none => (c, .invalidPointer)
  | some m =>
    if header_is_used m then
      (coalescePairs (c.set i (header_toggle_use_status m)), .freed)
    else (c, .doubleFree)

/-! ### Concrete scenarios -/

/-- Scenario A, first call: reserve(4094) on the fresh arena. -/
def scenA1 : MRes := cgcs_malloc_impl initChain 4094

/-- Scenario A, second call: reserve(1) on the saturated arena. -/
def scenA2 : MRes := cgcs_malloc_impl scenA1.chain 1

/-- Scenario B: reserve(100). -/
def scenB1 : MRes := cgcs_malloc_impl initChain 100

/-- Scenario B: reserve(200). -/
def scenB2 : MRes := cgcs_malloc_impl scenB1.chain 200

/-- Scenario B: release(ptr1); ptr1 = offset 2, block 0 of the walk. -/
def scenB3 : Chain × FStatus := cgcs_free_impl scenB2.chain 0

/-- Scenario B: release(ptr2); ptr2 = offset 104, block 1 of the walk. -/
def scenB4 : Chain × FStatus := cgcs_free_impl scenB3.1 1

/-- Two structurally adjacent blocks of the walk are both free. -/
def hasAdjacentFrees : Chain → Bool
  | m1 :: m2 :: r => (header_is_free m1 && header_is_free m2) || hasAdjacentFrees (m2 :: r)
  | _ => false

/-- Memory whose bytes differ from the fresh arena only at offsets -2
and -1, the two bytes immediately BEFORE the arena: there they hold the
little-endian encoding of -100.  All arena bytes (offsets 0..4095)
agree with freshMem. -/
def junkMem : Mem := write16 freshMem (-2) (-100)

/-- Round trip, first call: reserve(n) on the fresh arena. -/
def roundTrip1 (n : Nat) : MRes := cgcs_malloc_impl initChain n

/-- Round trip, second call: release of the returned pointer.  The
returned payload offset is 2, whose candidate header is block 0 of the
walk. -/
def roundTrip2 (n : Nat) : Chain × FStatus := cgcs_free_impl (roundTrip1 n).chain 0

/-- Round trip, third call: reserve(n) again. -/
def roundTrip3 (n : Nat) : MRes := cgcs_malloc_impl (roundTrip2 n).1 n

/-- Total footprint of the walk: the sum of header-size (2) plus
payload-size magnitude over all blocks.  Conservation states that this
equals CGCS_MALLOC_BLOCK_SIZE = 4096. -/
def csum (c : Chain) : Nat := (c.map (fun m => 2 + m.natAbs)).sum

/-- The header value the walk currently sits at for a scan cursor: for
a stale cursor this is the merged block the stale header lies inside
of. -/
def cursorHead : Cursor → Int
  | .real cur => cur
  | .stale curReal _ => curReal

/-- Arena states reachable from the freshly initialized arena by any
sequence of reserve and release calls.  A reserve may ask for any size.
A release is given a pointer whose candidate header is a header of the
block walk (every pointer obtained from reserve under normal operation
is of this form; the byte-level model covers the remaining wild
pointers, which the header-chain abstraction cannot represent). -/
inductive Reach : Chain → Prop
  | init : Reach initChain
  | malloc_step (c : Chain) (n : Nat) : Reach c → Reach (cgcs_malloc_impl c n).chain
  | free_step (c : Chain) (i : Nat) : Reach c → Reach (cgcs_free_impl c i).1

/-! ### Theorems -/

/-- C1: evaluating the code on Scenario A.  On the fresh arena
reserve(4094) succeeds without splitting (the walk becomes the single
used block [-4094]), as the claim states; but the subsequent
reserve(1), which the claim says must fail with OutOfMemory and return
NULL, instead returns the payload pointer at offset 2 again with
status ok, toggling the used block back to free: the search loop's
cursor stops at the structurally last block and the out-of-memory
branch never runs. -/
theorem scenarioA_second_reserve_returns_pointer :
    scenA1 = ⟨[-4094], some 2, MStatus.ok⟩ ∧
    scenA2 = ⟨[4094], some 2, MStatus.ok⟩ ∧
    scenA2.status ≠ MStatus.outOfMemory ∧ scenA2.ptr ≠ none := by
  refine ⟨by decide, by decide, by decide, by decide⟩

/-- C2: evaluating the code on Scenario B.  After reserve(100) (ptr1 at
offset 2), reserve(200) (ptr2 at offset 104), release(ptr1),
release(ptr2), the walk is the two free blocks [302, 3790] — not the
single free block of size 4094 the claim requires, and hence not
bit-for-bit identical to the freshly initialized arena.  The final
coalescing pass merges the first two of the three adjacent free blocks
into 302 and leaves 3790 separate, because after a merge its cursor
advances into the absorbed stale header instead of staying on the
merged block. -/
theorem scenarioB_final_state_not_single_block :
    scenB2.ptr = some 104 ∧
    scenB4.1 = [302, 3790] ∧ scenB4.1 ≠ initChain := by
  refine ⟨by decide, by decide, by decide⟩

/-- C3: evaluating the code on the release calls of Scenario B.  The
last release returns normally (status freed) yet leaves two
structurally adjacent blocks both free on the walk: the run of 3
adjacent free blocks present when the freed header was toggled
collapses only pairwise (to 2 blocks), not to one, refuting the
no-adjacent-free post-condition of release. -/
theorem release_leaves_adjacent_frees :
    scenB4.2 = FStatus.freed ∧ hasAdjacentFrees scenB4.1 = true := by
  refine ⟨by decide, by decide⟩

/-- C4 counterexample: on the freshly initialized arena, the pointer at
offset 100 has a candidate header (offset 98) that decodes to 0, so its
magnitude is ≤ 0 and the claim requires the InvalidPointer report; but
the code, which never examines the decoded magnitude, reports
DoubleFree instead (the pointer is inside the arena byte range and a
non-negative header reads as free). -/
theorem release_zero_magnitude_reports_doubleFree :
    decode16 freshMem 98 = 0 ∧
    cgcs_free_impl_bytes freshMem 100 8 = (freshMem, FStatus.doubleFree) ∧
    FStatus.doubleFree ≠ FStatus.invalidPointer := by
  refine ⟨by decide, rfl, by decide⟩

/-- C4 amended: release reports InvalidPointer exactly for pointers
outside the arena byte range [base, base + 4095]; the decoded magnitude
of the candidate header plays no part in that decision (an in-range
pointer is never reported InvalidPointer, whatever its candidate header
decodes to). -/
theorem invalidPointer_iff_out_of_range (m : Mem) (p : Int) (fuel : Nat) :
    (cgcs_free_impl_bytes m p fuel).2 = FStatus.invalidPointer ↔ p < 0 ∨ 4095 < p := by
  by_cases h : p < 0 ∨ 4095 < p
  · have hb : pointer_outside_block_range p = true := by
      simp only [pointer_outside_block_range, Bool.or_eq_true, decide_eq_true_eq]
      exact h
    simp [cgcs_free_impl_bytes, hb, h]
  · have hb : pointer_outside_block_range p = false := by
      simp only [pointer_outside_block_range, Bool.or_eq_false_iff, decide_eq_false_iff_not]
      omega
    simp only [cgcs_free_impl_bytes, hb, Bool.false_eq_true, if_false]
    constructor
    · intro hcontra
      by_cases hu : header_is_used_bytes m (p - 2) = true <;> simp [hu] at hcontra
    · intro hcontra
      exact absurd hcontra h

/-- Witness for the amended C4 theorem: a pointer below the arena is
reported InvalidPointer, an in-range one is not. -/
theorem invalidPointer_iff_out_of_range_witness :
    (cgcs_free_impl_bytes zeroMem (-7) 8).2 = FStatus.invalidPointer :=
  (invalidPointer_iff_out_of_range zeroMem (-7) 8).mpr (Or.inl (by norm_num))

/-- C5 counterexample: the pointer at the arena base (offset 0) lies
outside [arena-base + header-size, arena-end] but inside the range the
code checks, so release dereferences offset -2: the two bytes BEFORE
the arena.  With junkMem, whose arena bytes all agree with the fresh
arena but whose bytes at offsets -2, -1 encode -100, the call reads
those out-of-arena bytes, toggles them, coalesces and returns with
status freed: it silently succeeds instead of reporting InvalidPointer
or DoubleFree. -/
theorem release_at_base_silently_frees :
    pointer_outside_block_range 0 = false ∧
    (∀ o : Int, 0 ≤ o → o ≤ 4095 → junkMem o = freshMem o) ∧
    (cgcs_free_impl_bytes junkMem 0 8).2 = FStatus.freed ∧
    FStatus.freed ≠ FStatus.invalidPointer ∧ FStatus.freed ≠ FStatus.doubleFree := by
  refine ⟨by decide, ?_, by decide, by decide, by decide⟩
  intro o h0 h1
  simp only [junkMem, write16]
  have h2 : o ≠ (-2 : Int) := by omega
  have h3 : o ≠ (-1 : Int) := by omega
  simp [h2, h3]

/-- C5 amended: for every pointer strictly below the arena base or
strictly above the arena's last byte, release reports InvalidPointer
and performs no access and no state change (the memory returned is the
argument itself); pointers at arena-base and arena-base + 1 are the
remaining pointers outside [arena-base + header-size, arena-end], and
for them the guarantee fails as the counterexample shows. -/
theorem out_of_range_release_noop (m : Mem) (p : Int) (fuel : Nat)
    (h : p < 0 ∨ 4095 < p) :
    cgcs_free_impl_bytes m p fuel = (m, FStatus.invalidPointer) := by
  have hb : pointer_outside_block_range p = true := by
    simp only [pointer_outside_block_range, Bool.or_eq_true, decide_eq_true_eq]
    exact h
  simp [cgcs_free_impl_bytes, hb]

/-- Witness for the amended C5 theorem at pointer 5000. -/
theorem out_of_range_release_noop_witness :
    cgcs_free_impl_bytes zeroMem 5000 8 = (zeroMem, FStatus.invalidPointer) :=
  out_of_range_release_noop zeroMem 5000 8 (Or.inr (by norm_num))

/-- C6: release of any in-range pointer whose candidate header decodes
as already free (m_size ≥ 0) reports DoubleFree and is a complete
no-op: the memory returned is the argument itself, bit for bit.  In
particular a second release of the same pointer (whose header the first
release turned non-negative) leaves the arena exactly as the first
release left it. -/
theorem doubleFree_noop (m : Mem) (p : Int) (fuel : Nat)
    (h0 : 0 ≤ p) (h1 : p ≤ 4095) (hfree : 0 ≤ decode16 m (p - 2)) :
    cgcs_free_impl_bytes m p fuel = (m, FStatus.doubleFree) := by
  have hb : pointer_outside_block_range p = false := by
    simp only [pointer_outside_block_range, Bool.or_eq_false_iff, decide_eq_false_iff_not]
    omega
  have hu : header_is_used_bytes m (p - 2) = false := by
    simp only [header_is_used_bytes, decide_eq_false_iff_not, not_lt]
    exact hfree
  simp [cgcs_free_impl_bytes, hb, hu]

/-- Witness for the C6 theorem: on the fresh arena, releasing the
pointer at offset 2 (candidate header 4094, free) is a reported
DoubleFree no-op. -/
theorem doubleFree_noop_witness :
    cgcs_free_impl_bytes freshMem 2 8 = (freshMem, FStatus.doubleFree) :=
  doubleFree_noop freshMem 2 8 (by norm_num) (by norm_num) (by decide)

/-- C8: reserve fails with InvalidSize exactly when the requested size
is 0 or exceeds CGCS_MALLOC_BLOCK_SIZE - sizeof(header_t) = 4094, and
in that case it returns NULL without allocating: the walk is left
exactly as the lazy initialization left it. -/
theorem invalidSize_iff (c : Chain) (n : Nat) :
    ((cgcs_malloc_impl c n).status = MStatus.invalidSize ↔ (n = 0 ∨ 4094 < n)) ∧
    ((n = 0 ∨ 4094 < n) →
      (cgcs_malloc_impl c n).ptr = none ∧ (cgcs_malloc_impl c n).chain = lazyInit c) := by
  by_cases hg : n = 0 ∨ 4094 < n
  · have hb : (n == 0 || decide (4094 < n)) = true := by
      simp only [Bool.or_eq_true, beq_iff_eq, decide_eq_true_eq]
      exact hg
    simp [cgcs_malloc_impl, hb, hg]
  · have hb : (n == 0 || decide (4094 < n)) = false := by
      simp only [Bool.or_eq_false_iff, beq_eq_false_iff_ne, ne_eq, decide_eq_false_iff_not]
      omega
    rcases he : lazyInit c with _ | ⟨cur, rest⟩ <;>
      simp [cgcs_malloc_impl, hb, he, hg]

/-- Witness for the C8 theorem at size 4095 on the fresh arena. -/
theorem invalidSize_iff_witness :
    (cgcs_malloc_impl initChain 4095).status = MStatus.invalidSize ∧
    (cgcs_malloc_impl initChain 4095).ptr = none :=
  ⟨(invalidSize_iff initChain 4095).1.mpr (Or.inr (by norm_num)),
   ((invalidSize_iff initChain 4095).2 (Or.inr (by norm_num))).1⟩

/-- The lazy initialization never yields an empty walk. -/
lemma lazyInit_ne_nil (c : Chain) : lazyInit c ≠ [] := by
  rcases c with _ | ⟨m, t⟩
  · simp [lazyInit, initChain]
  · show (if m = 0 then initChain else m :: t) ≠ []
    split <;> simp [initChain]

/-- C10: for every arena state and every valid size, cgcs_malloc_impl
returns a non-NULL pointer with status ok: its search loop's cursor
starts at the arena base and is only ever assigned the loop
condition's (non-NULL) lookahead, so the loop always ends at a
selected block — it breaks at a fitting free block or stops at the
structurally last block, which is then selected unconditionally — and
the out-of-memory failure branch after the loop never runs. -/
theorem reserve_valid_size_never_null (c : Chain) (n : Nat)
    (h1 : 1 ≤ n) (h2 : n ≤ 4094) :
    (cgcs_malloc_impl c n).ptr.isSome = true ∧
    (cgcs_malloc_impl c n).status = MStatus.ok := by
  have hb : (n == 0 || decide (4094 < n)) = false := by
    simp only [Bool.or_eq_false_iff, beq_eq_false_iff_ne, ne_eq, decide_eq_false_iff_not]
    omega
  rcases he : lazyInit c with _ | ⟨cur, rest⟩
  · exact absurd he (lazyInit_ne_nil c)
  · simp [cgcs_malloc_impl, hb, he]

/-- Witness for the C10 theorem: a reserve(1) on the saturated
single-used-block arena still returns a pointer. -/
theorem reserve_valid_size_never_null_witness :
    (cgcs_malloc_impl [-4094] 1).ptr.isSome = true ∧
    (cgcs_malloc_impl [-4094] 1).status = MStatus.ok :=
  reserve_valid_size_never_null [-4094] 1 (by norm_num) (by norm_num)

/-- Wrapping to int16 is the identity on values already in range. -/
lemma i16_eq_self (v : Int) (hlo : -32768 ≤ v) (hhi : v ≤ 32767) : i16 v = v := by
  unfold i16
  omega

/-- Reserve on the freshly initialized arena selects the single block
at offset 0 and returns the payload pointer at offset 2. -/
lemma malloc_on_initChain (n : Nat) (h1 : 1 ≤ n) (h2 : n ≤ 4094) :
    cgcs_malloc_impl initChain n = ⟨selectBlock 0 4094 [] n, some 2, MStatus.ok⟩ := by
  have hb : (n == 0 || decide (4094 < n)) = false := by
    simp only [Bool.or_eq_false_iff, beq_eq_false_iff_ne, ne_eq, decide_eq_false_iff_not]
    omega
  simp [cgcs_malloc_impl, lazyInit, initChain, hb, scanGo]

/-- Selecting the fresh 4094-byte block for a request of at most 4091
bytes splits it: a used block of exactly n bytes and a free remainder
of 4092 - n bytes. -/
lemma selectBlock_initChain_small (n : Nat) (h1 : 1 ≤ n) (h2 : n ≤ 4091) :
    selectBlock 0 4094 [] n = [-(n : Int), 4092 - n] := by
  unfold selectBlock header_split_block header_calculate_split_remainder_size
    header_toggle_use_status
  have e1 : i16 ((4094 : Int) - n - 2) = 4092 - n := by
    rw [i16_eq_self _ (by omega) (by omega)]
    ring
  rw [e1]
  have hc1 : (1 : Int) ≤ 4092 - n := by omega
  rw [if_pos hc1]
  have hguard : (decide (4094 ≤ 0 + 2 + n) || (n == 0) || decide (4094 ≤ n)) = false := by
    simp only [Bool.or_eq_false_iff, beq_eq_false_iff_ne, ne_eq, decide_eq_false_iff_not]
    omega
  rw [hguard]
  have e2 : i16 (-(n : Int)) = -n := i16_eq_self _ (by omega) (by omega)
  simp [e2]

/-- Selecting the fresh 4094-byte block for a request of 4092..4094
bytes does not split (the remainder would be below 1): the whole block
is toggled to used. -/
lemma selectBlock_initChain_large (n : Nat) (h1 : 4092 ≤ n) (h2 : n ≤ 4094) :
    selectBlock 0 4094 [] n = [-4094] := by
  unfold selectBlock header_split_block header_calculate_split_remainder_size
    header_toggle_use_status
  have e1 : i16 ((4094 : Int) - n - 2) = 4092 - n := by
    rw [i16_eq_self _ (by omega) (by omega)]
    ring
  rw [e1]
  have hc1 : ¬ ((1 : Int) ≤ 4092 - n) := by omega
  rw [if_neg hc1]
  decide

/-- Releasing the used block of the split arena [-n, 4092 - n] through
its payload pointer (block 0 of the walk) coalesces back to the fresh
single free block. -/
lemma free_of_split_arena (n : Nat) (h1 : 1 ≤ n) (h2 : n ≤ 4091) :
    cgcs_free_impl [-(n : Int), 4092 - n] 0 = ([4094], FStatus.freed) := by
  unfold cgcs_free_impl
  have hu : header_is_used (-(n : Int)) = true := by
    simp only [header_is_used, decide_eq_true_eq]
    omega
  have ht : header_toggle_use_status (-(n : Int)) = (n : Int) := by
    unfold header_toggle_use_status
    rw [neg_neg]
    exact i16_eq_self _ (by omega) (by omega)
  simp only [List.get?, hu, if_true, ht]
  unfold coalescePairs
  have hf1 : header_is_free (n : Int) = true := by
    simp [header_is_free]
  have hf2 : header_is_free ((4092 : Int) - n) = true := by
    simp only [header_is_free, decide_eq_true_eq]
    omega
  simp only [List.set, hf1, hf2, Bool.and_self, if_true]
  have e3 : (n : Int) + ((4092 : Int) - n + 2) = 4094 := by ring
  rw [e3]
  decide

/-- C9: round trip on the fresh arena.  For every valid size n,
reserve(n) returns the payload pointer at offset 2; releasing it
restores the arena to the freshly initialized single free block
(initChain), bit for bit; and the second reserve(n) again succeeds
with a non-NULL pointer (the same offset 2). -/
theorem roundtrip_reserve_release_reserve (n : Nat) (h1 : 1 ≤ n) (h2 : n ≤ 4094) :
    (roundTrip2 n).1 = initChain ∧
    (roundTrip3 n).ptr = some 2 ∧ (roundTrip3 n).status = MStatus.ok := by
  have hrt2 : (roundTrip2 n).1 = initChain := by
    unfold roundTrip2 roundTrip1
    rw [malloc_on_initChain n h1 h2]
    by_cases hc : n ≤ 4091
    · rw [show (⟨selectBlock 0 4094 [] n, some 2, MStatus.ok⟩ : MRes).chain =
          selectBlock 0 4094 [] n from rfl]
      rw [selectBlock_initChain_small n h1 hc,
        free_of_split_arena n h1 hc]
      rfl
    · rw [show (⟨selectBlock 0 4094 [] n, some 2, MStatus.ok⟩ : MRes).chain =
          selectBlock 0 4094 [] n from rfl]
      rw [selectBlock_initChain_large n (by omega) h2]
      decide
  refine ⟨hrt2, ?_, ?_⟩
  · unfold roundTrip3
    rw [hrt2, malloc_on_initChain n h1 h2]
  · unfold roundTrip3
    rw [hrt2, malloc_on_initChain n h1 h2]

/-- Witness for the C9 theorem at size 100. -/
theorem roundtrip_reserve_release_reserve_witness :
    (roundTrip2 100).1 = initChain ∧
    (roundTrip3 100).ptr = some 2 ∧ (roundTrip3 100).status = MStatus.ok :=
  roundtrip_reserve_release_reserve 100 (by norm_num) (by norm_num)

/-- Footprint of a cons cell of the walk. -/
lemma csum_cons (m : Int) (t : Chain) : csum (m :: t) = 2 + m.natAbs + csum t := by
  simp [csum, add_assoc]

/-- Every header value of a walk whose footprint is within the arena
has magnitude at most 4094. -/
lemma natAbs_le_of_mem (c : Chain) (m : Int) (hm : m ∈ c) (hs : csum c ≤ 4096) :
    m.natAbs ≤ 4094 := by
  induction c with
  | nil => simp at hm
  | cons a t ih =>
    rw [csum_cons] at hs
    rcases List.mem_cons.mp hm with h | h
    · subst h
      omega
    · exact ih h (by omega)

/-- Replacing a header value by one of the same magnitude keeps the
footprint. -/
lemma csum_set (c : Chain) (i : Nat) (v m : Int) (hg : c.get? i = some m)
    (hv : v.natAbs = m.natAbs) : csum (c.set i v) = csum c := by
  induction c generalizing i with
  | nil => simp at hg
  | cons a t ih =>
    cases i with
    | zero =>
      simp only [List.get?] at hg
      injection hg with hg
      subst hg
      simp [List.set, csum_cons, hv]
    | succ j =>
      simp only [List.get?] at hg
      simp [List.set, csum_cons, ih j hg]

/-- The post-loop selection of cgcs_malloc_impl preserves the footprint
of the walk from the selected block on, and keeps every header value
nonzero, for any request within the guard bound. -/
lemma selectBlock_good (off : Nat) (cur : Int) (rest : Chain) (n : Nat)
    (hn1 : 1 ≤ n) (hn2 : n ≤ 4094)
    (hb : 2 + cur.natAbs + csum rest ≤ 4096) (hc : cur ≠ 0) (hr : ∀ m ∈ rest, m ≠ 0) :
    csum (selectBlock off cur rest n) = 2 + cur.natAbs + csum rest ∧
    ∀ m ∈ selectBlock off cur rest n, m ≠ 0 := by
  have hcur : cur.natAbs ≤ 4094 := by
    have h0 : 0 ≤ csum rest := Nat.zero_le _
    omega
  unfold selectBlock header_calculate_split_remainder_size header_split_block
    header_toggle_use_status
  have e1 : i16 (cur - n - 2) = cur - n - 2 := i16_eq_self _ (by omega) (by omega)
  rw [e1]
  by_cases h1 : (1 : Int) ≤ cur - n - 2
  · rw [if_pos h1]
    by_cases h2 : (decide (4094 ≤ off + 2 + n) || (n == 0) || decide (4094 ≤ n)) = true
    · rw [if_pos h2]
      have e2 : i16 (-cur) = -cur := i16_eq_self _ (by omega) (by omega)
      simp only [e2, csum_cons]
      constructor
      · omega
      · intro m hm
        rcases List.mem_cons.mp hm with h | h
        · subst h; omega
        · exact hr m h
    · rw [if_neg h2]
      have e3 : i16 (-(n : Int)) = -n := i16_eq_self _ (by omega) (by omega)
      simp only [e3, csum_cons]
      constructor
      · omega
      · intro m hm
        rcases List.mem_cons.mp hm with h | h
        · subst h; omega
        · rcases List.mem_cons.mp h with h4 | h4
          · subst h4; omega
          · exact hr m h4
  · rw [if_neg h1]
    have e2 : i16 (-cur) = -cur := i16_eq_self _ (by omega) (by omega)
    simp only [e2, csum_cons]
    constructor
    · omega
    · intro m hm
      rcases List.mem_cons.mp hm with h | h
      · subst h; omega
      · exact hr m h

/-- The search loop of cgcs_malloc_impl preserves the footprint of the
part of the walk it covers (the block its cursor sits in plus the
remaining blocks), and keeps every header value nonzero. -/
lemma scanGo_good (n : Nat) (hn1 : 1 ≤ n) (hn2 : n ≤ 4094) :
    ∀ (rest : Chain) (off : Nat) (cu : Cursor),
      2 + (cursorHead cu).natAbs + csum rest ≤ 4096 →
      cursorHead cu ≠ 0 →
      (∀ m ∈ rest, m ≠ 0) →
      csum (scanGo n off cu rest).1 = 2 + (cursorHead cu).natAbs + csum rest ∧
      ∀ m ∈ (scanGo n off cu rest).1, m ≠ 0 := by
  intro rest
  induction rest with
  | nil =>
    intro off cu hb hc hr
    rcases cu with cur | ⟨curReal, staleVal⟩
    · simpa [scanGo, cursorHead] using
        selectBlock_good off cur [] n hn1 hn2 (by simpa [cursorHead] using hb) hc (by simp)
    · constructor
      · simp [scanGo, cursorHead, csum_cons, csum]
      · intro m hm
        simp only [scanGo, List.mem_singleton] at hm
        subst hm
        exact hc
  | cons a t ih =>
    intro off cu hb hc hr
    have ha0 : a ≠ 0 := hr a (List.mem_cons_self a t)
    have hrt : ∀ m ∈ t, m ≠ 0 := fun m hm => hr m (List.mem_cons_of_mem a hm)
    rw [csum_cons] at hb
    rcases cu with cur | ⟨curReal, staleVal⟩
    · simp only [cursorHead] at hb hc ⊢
      by_cases hfc : header_is_free cur = true
      · by_cases hfa : header_is_free a = true
        · have hcur0 : 0 ≤ cur := by simpa [header_is_free] using hfc
          have ha0' : 0 ≤ a := by simpa [header_is_free] using hfa
          have hmerged : i16 (cur + (a + 2)) = cur + (a + 2) :=
            i16_eq_self _ (by omega) (by omega)
          by_cases hfit : n ≤ header_alloc_size (i16 (cur + (a + 2)))
          · simp only [scanGo, hfc, hfa, if_true, hfit, if_pos]
            obtain ⟨ih1, ih2⟩ := selectBlock_good off (i16 (cur + (a + 2))) t n hn1 hn2
              (by rw [hmerged]; omega) (by rw [hmerged]; omega) hrt
            have hAbs : (i16 (cur + (a + 2))).natAbs = (cur + (a + 2)).natAbs := by
              rw [hmerged]
            refine ⟨?_, ih2⟩
            rw [csum_cons, ih1, hAbs]
            omega
          · simp only [scanGo, hfc, hfa, if_true, hfit, if_neg, if_false]
            obtain ⟨ih1, ih2⟩ := ih (off + 2 + header_alloc_size cur)
              (.stale (i16 (cur + (a + 2))) a)
              (by simp only [cursorHead]; rw [hmerged]; omega)
              (by simp only [cursorHead]; rw [hmerged]; omega) hrt
            simp only [cursorHead] at ih1
            have hAbs : (i16 (cur + (a + 2))).natAbs = (cur + (a + 2)).natAbs := by
              rw [hmerged]
            refine ⟨?_, ih2⟩
            rw [csum_cons, ih1, hAbs]
            omega
        · by_cases hfit : n ≤ header_alloc_size cur
          · simp only [scanGo, hfc, hfa, if_true, Bool.false_eq_true, if_false, hfit, if_pos]
            obtain ⟨ih1, ih2⟩ := selectBlock_good off cur (a :: t) n hn1 hn2
              (by rw [csum_cons]; omega) hc hr
            rw [csum_cons] at ih1
            refine ⟨?_, ih2⟩
            rw [csum_cons, ih1]
          · simp only [scanGo, hfc, hfa, if_true, Bool.false_eq_true, if_false, hfit, if_neg]
            obtain ⟨ih1, ih2⟩ := ih (off + 2 + header_alloc_size cur) (.real a)
              (by simp only [cursorHead]; omega) (by simpa [cursorHead] using ha0) hrt
            simp only [cursorHead] at ih1
            refine ⟨?_, ?_⟩
            · rw [csum_cons, csum_cons, ih1]
            · intro m hm
              rcases List.mem_cons.mp hm with h | h
              · subst h; exact hc
              · exact ih2 m h
      · simp only [scanGo, hfc, Bool.false_eq_true, if_false]
        obtain ⟨ih1, ih2⟩ := ih (off + 2 + header_alloc_size cur) (.real a)
          (by simp only [cursorHead]; omega) (by simpa [cursorHead] using ha0) hrt
        simp only [cursorHead] at ih1
        refine ⟨?_, ?_⟩
        · rw [csum_cons, csum_cons, ih1]
        · intro m hm
          rcases List.mem_cons.mp hm with h | h
          · subst h; exact hc
          · exact ih2 m h
    · simp only [cursorHead] at hb hc ⊢
      have hreal : ∀ soff : Nat,
          csum (curReal :: (scanGo n soff (.real a) t).1) =
            2 + curReal.natAbs + (2 + a.natAbs + csum t) ∧
          ∀ m ∈ curReal :: (scanGo n soff (.real a) t).1, m ≠ 0 := by
        intro soff
        obtain ⟨ih1, ih2⟩ := ih soff (.real a)
          (by simp only [cursorHead]; omega) (by simpa [cursorHead] using ha0) hrt
        simp only [cursorHead] at ih1
        refine ⟨?_, ?_⟩
        · rw [csum_cons, ih1]
        · intro m hm
          rcases List.mem_cons.mp hm with h | h
          · subst h; exact hc
          · exact ih2 m h
      have hkeep :
          csum (curReal :: a :: t) = 2 + curReal.natAbs + (2 + a.natAbs + csum t) ∧
          ∀ m ∈ curReal :: a :: t, m ≠ 0 := by
        refine ⟨by rw [csum_cons, csum_cons], ?_⟩
        intro m hm
        rcases List.mem_cons.mp hm with h | h
        · subst h; exact hc
        · exact hr m h
      rw [csum_cons]
      by_cases hfs : header_is_free staleVal = true
      · by_cases hfa : header_is_free a = true
        · by_cases hfit : n ≤ header_alloc_size (i16 (staleVal + (a + 2)))
          · simp only [scanGo, hfs, hfa, if_true, hfit, if_pos]
            exact hkeep
          · simp only [scanGo, hfs, hfa, if_true, hfit, if_neg, if_false]
            exact hreal (off + 2 + header_alloc_size staleVal)
        · by_cases hfit : n ≤ header_alloc_size staleVal
          · simp only [scanGo, hfs, hfa, if_true, Bool.false_eq_true, if_false, hfit, if_pos]
            exact hkeep
          · simp only [scanGo, hfs, hfa, if_true, Bool.false_eq_true, if_false, hfit, if_neg]
            exact hreal (off + 2 + header_alloc_size staleVal)
      · simp only [scanGo, hfs, Bool.false_eq_true, if_false]
        exact hreal (off + 2 + header_alloc_size staleVal)

/-- The coalescing pass preserves the footprint of the walk and keeps
every header value nonzero. -/
lemma coalescePairs_good : ∀ c : Chain, csum c ≤ 4096 → (∀ m ∈ c, m ≠ 0) →
    csum (coalescePairs c) = csum c ∧ ∀ m ∈ coalescePairs c, m ≠ 0 := by
  intro c
  induction c using coalescePairs.induct with
  | case1 =>
    intro _ _
    exact ⟨rfl, by simp [coalescePairs]⟩
  | case2 m =>
    intro _ hz
    exact ⟨rfl, by simpa [coalescePairs] using hz⟩
  | case3 m1 m2 rest hfree ih =>
    intro hs hz
    have h1 : 0 ≤ m1 := by
      have := (Bool.and_eq_true _ _).mp hfree
      simpa [header_is_free] using this.1
    have h2 : 0 ≤ m2 := by
      have := (Bool.and_eq_true _ _).mp hfree
      simpa [header_is_free] using this.2
    rw [csum_cons, csum_cons] at hs
    have hm12 : i16 (m1 + (m2 + 2)) = m1 + (m2 + 2) :=
      i16_eq_self _ (by omega) (by omega)
    obtain ⟨ih1, ih2⟩ := ih (by omega) (fun m hm => hz m (by simp [hm]))
    simp only [coalescePairs, hfree, if_true]
    refine ⟨?_, ?_⟩
    · rw [csum_cons, csum_cons, csum_cons, ih1, hm12]
      omega
    · intro m hm
      rcases List.mem_cons.mp hm with h | h
      · subst h
        rw [hm12]
        omega
      · exact ih2 m h
  | case4 m1 m2 rest hfree ih =>
    intro hs hz
    rw [csum_cons] at hs
    obtain ⟨ih1, ih2⟩ := ih (by omega) (fun m hm => hz m (by simp at hm ⊢; tauto))
    have hf2 : (header_is_free m1 && header_is_free m2) = false := by
      simpa using hfree
    simp only [coalescePairs, hf2, Bool.false_eq_true, if_false]
    refine ⟨?_, ?_⟩
    · rw [csum_cons, csum_cons, ih1]
    · intro m hm
      rcases List.mem_cons.mp hm with h | h
      · subst h
        exact hz m (by simp)
      · exact ih2 m h

/-- cgcs_malloc_impl preserves the conservation invariant: footprint
4096 and no zero header on the walk. -/
lemma malloc_inv (c : Chain) (n : Nat)
    (hs : csum c = 4096) (hz : ∀ m ∈ c, m ≠ 0) :
    csum (cgcs_malloc_impl c n).chain = 4096 ∧
    ∀ m ∈ (cgcs_malloc_impl c n).chain, m ≠ 0 := by
  have hlz : lazyInit c = c := by
    rcases c with _ | ⟨m, t⟩
    · simp [csum] at hs
    · have hm : m ≠ 0 := hz m (List.mem_cons_self m t)
      simp [lazyInit, hm]
  by_cases hg : (n == 0 || decide (4094 < n)) = true
  · simp only [cgcs_malloc_impl, hlz, hg, if_true]
    exact ⟨hs, hz⟩
  · have hn1 : 1 ≤ n := by
      rcases Bool.or_eq_false_iff.mp (Bool.not_eq_true _ |>.mp hg) with ⟨ha, _⟩
      have := beq_eq_false_iff_ne.mp ha
      omega
    have hn2 : n ≤ 4094 := by
      rcases Bool.or_eq_false_iff.mp (Bool.not_eq_true _ |>.mp hg) with ⟨_, hb2⟩
      have := of_decide_eq_false hb2
      omega
    rcases hc : c with _ | ⟨cur, rest⟩
    · rw [hc] at hs
      simp [csum] at hs
    · rw [hc] at hlz hs hz
      rw [csum_cons] at hs
      obtain ⟨g1, g2⟩ := scanGo_good n hn1 hn2 rest 0 (.real cur)
        (by simp only [cursorHead]; omega)
        (by simpa [cursorHead] using hz cur (List.mem_cons_self cur rest))
        (fun m hm => hz m (List.mem_cons_of_mem cur hm))
    -- the branch taken is the search loop
      simp only [cgcs_malloc_impl, hlz, hg, Bool.false_eq_true, if_false]
      simp only [cursorHead] at g1
      exact ⟨by rw [g1]; omega, g2⟩

/-- cgcs_free_impl preserves the conservation invariant. -/
lemma free_inv (c : Chain) (i : Nat)
    (hs : csum c = 4096) (hz : ∀ m ∈ c, m ≠ 0) :
    csum (cgcs_free_impl c i).1 = 4096 ∧
    ∀ m ∈ (cgcs_free_impl c i).1, m ≠ 0 := by
  unfold cgcs_free_impl
  rcases hg : c.get? i with _ | m
  · exact ⟨hs, hz⟩
  · have hm : m ∈ c := List.get?_mem hg
    have hbd : m.natAbs ≤ 4094 := natAbs_le_of_mem c m hm (by omega)
    by_cases hu : header_is_used m = true
    · have hmneg : m < 0 := by simpa [header_is_used] using hu
      have htog : header_toggle_use_status m = -m := by
        unfold header_toggle_use_status
        exact i16_eq_self _ (by omega) (by omega)
      have habs : (header_toggle_use_status m).natAbs = m.natAbs := by
        rw [htog]
        omega
      have hset : csum (c.set i (header_toggle_use_status m)) = csum c :=
        csum_set c i _ m hg habs
      have hzset : ∀ x ∈ c.set i (header_toggle_use_status m), x ≠ 0 := by
        intro x hx
        rcases List.mem_or_eq_of_mem_set hx with h | h
        · exact hz x h
        · subst h
          rw [htog]
          omega
      obtain ⟨g1, g2⟩ := coalescePairs_good (c.set i (header_toggle_use_status m))
        (by omega) hzset
      simp only [hg, hu, if_true]
      exact ⟨by rw [g1, hset, hs], g2⟩
    · simp only [hg, hu, Bool.false_eq_true, if_false]
      exact ⟨hs, hz⟩

/-- Every reachable arena state satisfies the conservation invariant. -/
lemma reach_inv (c : Chain) (h : Reach c) :
    csum c = 4096 ∧ ∀ m ∈ c, m ≠ 0 := by
  induction h with
  | init => exact ⟨by decide, by decide⟩
  | malloc_step c n _ ih => exact malloc_inv c n ih.1 ih.2
  | free_step c i _ ih => exact free_inv c i ih.1 ih.2

/-- C7: conservation.  In every arena state reachable from the freshly
initialized arena by any sequence of reserve and release calls, the
sum of (header-size + payload-size magnitude) over all blocks of the
walk equals CGCS_MALLOC_BLOCK_SIZE = 4096 exactly. -/
theorem conservation_reachable (c : Chain) (h : Reach c) : csum c = 4096 :=
  (reach_inv c h).1

/-- Witness for the C7 theorem: the state after reserve(100) followed
by a release of the returned block. -/
theorem conservation_reachable_witness :
    csum (cgcs_free_impl (cgcs_malloc_impl initChain 100).chain 0).1 = 4096 :=
  conservation_reachable _ (Reach.free_step _ 0 (Reach.malloc_step _ 100 Reach.init))

end CgcsMalloc
